import Mathlib

/-!
# Verification of the pymovements event-detection and signal-transform core

The repository's documented core is a pipeline of coordinate transforms
(`pix2deg`, `deg2pix`), differentiation filters (`pos2vel` with methods
`preceding`, `neighbors`, `smooth`/`fivepoint`, `savitzky_golay`), and event
detectors (`idt`, `ivt`, `microsaccades`, `fill`).  The Python implementation
files are not part of the material under verification (only documentation,
tutorials and dataset declarations are), so the definitions below are shallow
embeddings modelled from the specification's algorithm descriptions.

Timestamps are modelled as natural-number sample indices (nominal sampling
interval 1), velocity magnitudes and thresholds as rationals, and screen
positions for the dispersion detector as integer pairs.  Missing samples are
`Option.none`.
-/

namespace Pymovements

/-- Modelled from the spec: the detection code is absent from the sources;
an `Event` is `(name, onset, offset)` with timestamps as sample indices. -/
structure Event where
  name : String
  onset : Nat
  offset : Nat
deriving DecidableEq, Repr

/-- Modelled from the spec: error taxonomy of the absent detection code,
`InvalidThreshold` for non-positive thresholds and `InvalidParameter` for
malformed numeric configuration. -/
inductive DetectError where
  | InvalidThreshold
  | InvalidParameter
deriving DecidableEq, Repr

/-- Accumulator pass extracting maximal runs of `true` as inclusive index
intervals; `i` is the index of the next sample, `cur` the run in progress. -/
def runsAux : List Bool → Nat → Option (Nat × Nat) → List (Nat × Nat)
  | [], _, none => []
  | [], _, some r => [r]
  | b :: bs, i, none =>
      if b then runsAux bs (i + 1) (some (i, i)) else runsAux bs (i + 1) none
  | b :: bs, i, some (s, e) =>
      if b then runsAux bs (i + 1) (some (s, i))
      else (s, e) :: runsAux bs (i + 1) none

/-- Maximal runs of `true` in a Boolean per-sample classification, as
inclusive `(first, last)` index pairs in increasing order. -/
def runs (bs : List Bool) : List (Nat × Nat) := runsAux bs 0 none

/-- Well-formed interval lists: every interval starts no earlier than `lo`,
has `first ≤ last`, and successive intervals are disjoint and increasing. -/
def RunsOK : Nat → List (Nat × Nat) → Prop
  | _, [] => True
  | lo, (s, e) :: rest => lo ≤ s ∧ s ≤ e ∧ RunsOK (e + 1) rest

/-- Every interval in the list spans at least `m` timestamp units. -/
def MinLen (m : Nat) (l : List (Nat × Nat)) : Prop := ∀ r ∈ l, m ≤ r.2 - r.1

theorem runsOK_mono {lo lo' : Nat} {l : List (Nat × Nat)} (h : lo' ≤ lo) :
    RunsOK lo l → RunsOK lo' l := by
  cases l with
  | nil => intro; trivial
  | cons r rest =>
    obtain ⟨s, e⟩ := r
    rintro ⟨h1, h2, h3⟩
    exact ⟨le_trans h h1, h2, h3⟩

theorem runsAux_ok (bs : List Bool) : ∀ i : Nat,
    (∀ lo, lo ≤ i → RunsOK lo (runsAux bs i none)) ∧
    (∀ s e, s ≤ e → e < i → RunsOK s (runsAux bs i (some (s, e)))) := by
  induction bs with
  | nil =>
    intro i
    refine ⟨fun lo _ => ?_, fun s e hse _ => ?_⟩
    · simp [runsAux, RunsOK]
    · simp only [runsAux]
      exact ⟨le_refl s, hse, trivial⟩
  | cons b bs ih =>
    intro i
    refine ⟨fun lo hlo => ?_, fun s e hse hei => ?_⟩
    · by_cases hb : b
      · simp only [runsAux, hb, if_true]
        exact runsOK_mono hlo ((ih (i + 1)).2 i i (le_refl i) (Nat.lt_succ_self i))
      · simp only [runsAux, hb, if_false]
        exact (ih (i + 1)).1 lo (le_trans hlo (Nat.le_succ i))
    · by_cases hb : b
      · simp only [runsAux, hb, if_true]
        exact (ih (i + 1)).2 s i (le_trans hse (le_of_lt hei)) (Nat.lt_succ_self i)
      · simp only [runsAux, hb, if_false]
        exact ⟨le_refl s, hse, (ih (i + 1)).1 (e + 1) (by omega)⟩

theorem runs_ok (bs : List Bool) : RunsOK 0 (runs bs) :=
  (runsAux_ok bs 0).1 0 (le_refl 0)

theorem runsOK_filter (p : Nat × Nat → Bool) :
    ∀ {l : List (Nat × Nat)} {lo : Nat}, RunsOK lo l → RunsOK lo (l.filter p) := by
  intro l
  induction l with
  | nil => intro lo _; trivial
  | cons r rest ih =>
    obtain ⟨s, e⟩ := r
    intro lo h
    obtain ⟨h1, h2, h3⟩ := h
    by_cases hp : p (s, e)
    · simpa [List.filter_cons, hp] using And.intro h1 (And.intro h2 (ih h3))
    · simpa [List.filter_cons, hp] using runsOK_mono (by omega) (ih h3)

/-- Modelled from the spec: candidate saccades separated by less than the
minimum inter-event interval are merged into their union interval; `cur` is
the candidate currently being extended. -/
def mergeGo (g : Nat) : Nat × Nat → List (Nat × Nat) → List (Nat × Nat)
  | cur, [] => [cur]
  | (s1, e1), (s2, e2) :: rest =>
      if s2 - e1 < g then mergeGo g (s1, e2) rest
      else (s1, e1) :: mergeGo g (s2, e2) rest

/-- Merge adjacent candidate intervals closer than `g` into union intervals. -/
def mergeClose (g : Nat) : List (Nat × Nat) → List (Nat × Nat)
  | [] => []
  | r :: rest => mergeGo g r rest

theorem mergeGo_ok (g : Nat) : ∀ (rest : List (Nat × Nat)) (s e lo m : Nat),
    lo ≤ s → s ≤ e → m ≤ e - s → RunsOK (e + 1) rest → MinLen m rest →
    RunsOK lo (mergeGo g (s, e) rest) ∧ MinLen m (mergeGo g (s, e) rest) := by
  intro rest
  induction rest with
  | nil =>
    intro s e lo m h1 h2 h3 _ _
    refine ⟨⟨h1, h2, trivial⟩, ?_⟩
    intro r hr
    simp only [mergeGo, List.mem_singleton] at hr
    subst hr
    exact h3
  | cons r2 rest ih =>
    obtain ⟨s2, e2⟩ := r2
    intro s e lo m h1 h2 h3 hR hM
    obtain ⟨hA, hB, hC⟩ := hR
    have hM2 : m ≤ e2 - s2 := hM (s2, e2) (List.mem_cons_self _ _)
    have hMrest : MinLen m rest := fun r hr => hM r (List.mem_cons_of_mem _ hr)
    by_cases hg : s2 - e < g
    · simp only [mergeGo, hg, if_true]
      exact ih s e2 lo m h1 (by omega) (by omega) hC hMrest
    · simp only [mergeGo, hg, if_false]
      have hrec := ih s2 e2 (e + 1) m hA hB hM2 hC hMrest
      refine ⟨⟨h1, h2, hrec.1⟩, ?_⟩
      intro r hr
      rcases List.mem_cons.mp hr with h | h
      · subst h; exact h3
      · exact hrec.2 r h

theorem mergeClose_ok (g : Nat) {l : List (Nat × Nat)} {lo m : Nat}
    (hR : RunsOK lo l) (hM : MinLen m l) :
    RunsOK lo (mergeClose g l) ∧ MinLen m (mergeClose g l) := by
  cases l with
  | nil => exact ⟨trivial, fun r hr => by simp [mergeClose] at hr⟩
  | cons r rest =>
    obtain ⟨s, e⟩ := r
    obtain ⟨h1, h2, h3⟩ := hR
    exact mergeGo_ok g rest s e lo m h1 h2
      (hM (s, e) (List.mem_cons_self _ _)) h3
      (fun r hr => hM r (List.mem_cons_of_mem _ hr))

/-- Tag an interval list with an event name. -/
def mkEvents (nm : String) (l : List (Nat × Nat)) : List Event :=
  l.map (fun r => ⟨nm, r.1, r.2⟩)

/-- The invariant required of one detector run's output: strictly positive
spans, and successive events non-overlapping (`offset ≤` next `onset`, hence
ordered by onset). -/
def EventsOK (evs : List Event) : Prop :=
  (∀ ev ∈ evs, ev.onset < ev.offset) ∧
    List.Chain' (fun a b => a.offset ≤ b.onset) evs

theorem runsOK_chain : ∀ {l : List (Nat × Nat)} {lo : Nat}, RunsOK lo l →
    List.Chain' (fun a b : Nat × Nat => a.2 < b.1) l := by
  intro l
  induction l with
  | nil => intro lo _; simp
  | cons r rest ih =>
    obtain ⟨s, e⟩ := r
    intro lo h
    obtain ⟨h1, h2, h3⟩ := h
    cases rest with
    | nil => simp
    | cons r2 rest2 =>
      obtain ⟨s2, e2⟩ := r2
      obtain ⟨g1, g2, g3⟩ := h3
      exact List.chain'_cons.mpr ⟨by omega, ih ⟨g1, g2, g3⟩⟩

theorem minLen_filter (m : Nat) (l : List (Nat × Nat)) :
    MinLen m (l.filter (fun r => decide (m ≤ r.2 - r.1))) := by
  intro r hr
  have := List.of_mem_filter hr
  exact of_decide_eq_true this

theorem eventsOK_mkEvents {l : List (Nat × Nat)} {lo m : Nat} (nm : String)
    (hm : 1 ≤ m) (hR : RunsOK lo l) (hM : MinLen m l) :
    EventsOK (mkEvents nm l) := by
  constructor
  · intro ev hev
    obtain ⟨r, hrl, hr⟩ := List.mem_map.mp hev
    have := hM r hrl
    subst hr
    simp only
    omega
  · unfold mkEvents
    rw [List.chain'_map]
    exact List.Chain'.imp (fun a b h => by simp only; omega) (runsOK_chain hR)

/-- Modelled from the spec: the `ivt` velocity-threshold detector is absent
from the sources.  Each sample is `slow` when its velocity magnitude is
present and `≤ threshold`; missing samples terminate runs; maximal slow runs
whose timestamp span reaches the minimum duration become fixation events
(default name `fixation`).  Non-positive thresholds fail with
`InvalidThreshold`, a non-positive minimum duration with `InvalidParameter`. -/
def ivt (vels : List (Option ℚ)) (threshold : ℚ) (minDur : Nat)
    (name : Option String) : Except DetectError (List Event) :=
  if threshold ≤ 0 then .error .InvalidThreshold
  else if minDur = 0 then .error .InvalidParameter
  else .ok (mkEvents (name.getD "fixation")
    (((runs (vels.map (fun v =>
        match v with
        | some m => decide (m ≤ threshold)
        | none => false))).filter
      (fun r => decide (minDur ≤ r.2 - r.1)))))

/-- Modelled from the spec: the `microsaccades` detector is absent from the
sources.  With an explicit fixed threshold override, samples with present
velocity magnitude strictly above the threshold are `fast`; maximal fast runs
meeting the minimum duration become candidates, and candidates separated by
less than `minInterval` are merged into their union.  Default event name is
`saccade`. -/
def microsaccades (vels : List (Option ℚ)) (threshold : ℚ)
    (minDur minInterval : Nat) (name : Option String) :
    Except DetectError (List Event) :=
  if threshold ≤ 0 then .error .InvalidThreshold
  else if minDur = 0 then .error .InvalidParameter
  else .ok (mkEvents (name.getD "saccade")
    (mergeClose minInterval
      (((runs (vels.map (fun v =>
          match v with
          | some m => decide (threshold < m)
          | none => false))).filter
        (fun r => decide (minDur ≤ r.2 - r.1))))))

/-- Modelled from the spec: the `fill` gap-closing pass is absent from the
sources.  The trial's time range is `[0, nSamples)`; a timestamp is covered
when it lies in some existing event's half-open `[onset, offset)` interval;
every maximal uncovered interval whose duration strictly exceeds `minGap`
receives a filler event (default name `unclassified`). -/
def fillDetector (nSamples : Nat) (existing : List (Nat × Nat)) (minGap : Nat)
    (name : Option String) : List Event :=
  mkEvents (name.getD "unclassified")
    (((runs ((List.range nSamples).map (fun t =>
        !(existing.any (fun r => decide (r.1 ≤ t) && decide (t < r.2)))))).filter
      (fun r => decide (minGap < r.2 + 1 - r.1))).map
      (fun r => (r.1, r.2 + 1)))

theorem ivt_ok_simp {vels : List (Option ℚ)} {threshold : ℚ} {minDur : Nat}
    {name : Option String} {evs : List Event}
    (h : ivt vels threshold minDur name = .ok evs) :
    0 < threshold ∧ 0 < minDur ∧
      evs = mkEvents (name.getD "fixation")
        (((runs (vels.map (fun v =>
            match v with
            | some m => decide (m ≤ threshold)
            | none => false))).filter
          (fun r => decide (minDur ≤ r.2 - r.1)))) := by
  unfold ivt at h
  by_cases ht : threshold ≤ 0
  · simp [ht] at h
  · by_cases hm : minDur = 0
    · simp [ht, hm] at h
    · simp only [ht, hm, if_false, Except.ok.injEq] at h
      exact ⟨not_le.mp ht, Nat.pos_of_ne_zero hm, h.symm⟩

theorem microsaccades_ok_simp {vels : List (Option ℚ)} {threshold : ℚ}
    {minDur minInterval : Nat} {name : Option String} {evs : List Event}
    (h : microsaccades vels threshold minDur minInterval name = .ok evs) :
    0 < threshold ∧ 0 < minDur ∧
      evs = mkEvents (name.getD "saccade")
        (mergeClose minInterval
          (((runs (vels.map (fun v =>
              match v with
              | some m => decide (threshold < m)
              | none => false))).filter
            (fun r => decide (minDur ≤ r.2 - r.1))))) := by
  unfold microsaccades at h
  by_cases ht : threshold ≤ 0
  · simp [ht] at h
  · by_cases hm : minDur = 0
    · simp [ht, hm] at h
    · simp only [ht, hm, if_false, Except.ok.injEq] at h
      exact ⟨not_le.mp ht, Nat.pos_of_ne_zero hm, h.symm⟩

/-- Screen position of one sample, integer pixel coordinates. -/
def Point : Type := ℤ × ℤ

instance : DecidableEq Point := by unfold Point; infer_instance

/-- Whether the sample at index `i` carries a present position. -/
def presentAt (pos : List (Option Point)) (i : Nat) : Bool :=
  (pos.getD i none).isSome

/-- Index of the first missing sample in the inclusive window `[a, b]`, if
any. -/
def firstMissing (pos : List (Option Point)) (a b : Nat) : Option Nat :=
  (((List.range (b + 1 - a)).map (fun k => a + k)).find?
    (fun i => !(presentAt pos i)))

/-- The present positions inside the inclusive window `[a, b]`. -/
def windowPoints (pos : List (Option Point)) (a b : Nat) : List Point :=
  (List.range (b + 1 - a)).filterMap (fun k => pos.getD (a + k) none)

/-- Modelled from the spec: dispersion of a window is the maximal horizontal
extent plus the maximal vertical extent of its positions. -/
def dispersion (ps : List Point) : ℤ :=
  match ps with
  | [] => 0
  | p :: rest =>
      (((p :: rest).map Prod.fst).foldl max p.1
          - ((p :: rest).map Prod.fst).foldl min p.1)
        + (((p :: rest).map Prod.snd).foldl max p.2
          - ((p :: rest).map Prod.snd).foldl min p.2)

/-- Dispersion of the inclusive index window `[a, b]`. -/
def dispersionW (pos : List (Option Point)) (a b : Nat) : ℤ :=
  dispersion (windowPoints pos a b)

/-- Modelled from the spec: the `GROWING` state of the absent `idt` detector.
Starting from window end `e`, keep absorbing the next sample while it exists,
is present, and keeps the window dispersion within the threshold.  `fuel`
bounds the recursion; callers pass `pos.length`, which is sufficient. -/
def growEnd (pos : List (Option Point)) (thr : ℤ) (s : Nat) :
    Nat → Nat → Nat
  | 0, e => e
  | fuel + 1, e =>
      if e + 1 < pos.length ∧ presentAt pos (e + 1) = true
          ∧ dispersionW pos s (e + 1) ≤ thr then
        growEnd pos thr s fuel (e + 1)
      else e

/-- Modelled from the spec: the window state machine of the absent `idt`
detector.  `s` is the candidate window start; the initial window spans
timestamps `[s, s + m]`.  A window containing a missing sample restarts after
the first gap; a window over-threshold advances the start by one; otherwise
the window is grown sample-by-sample and emitted, and scanning restarts at
the sample following the emitted event.  `fuel` bounds the recursion;
callers pass `pos.length`, which is sufficient. -/
def idtGo (pos : List (Option Point)) (thr : ℤ) (m : Nat) :
    Nat → Nat → List (Nat × Nat)
  | 0, _ => []
  | fuel + 1, s =>
      if s + m < pos.length then
        match firstMissing pos s (s + m) with
        | some k => idtGo pos thr m fuel (k + 1)
        | none =>
            if dispersionW pos s (s + m) ≤ thr then
              (s, growEnd pos thr s pos.length (s + m))
                :: idtGo pos thr m fuel (growEnd pos thr s pos.length (s + m) + 1)
            else idtGo pos thr m fuel (s + 1)
      else []

/-- Modelled from the spec: the `idt` dispersion-threshold detector is absent
from the sources.  Default event name is `fixation`; non-positive thresholds
fail with `InvalidThreshold`, a non-positive minimum duration with
`InvalidParameter`. -/
def idt (pos : List (Option Point)) (threshold : ℤ) (minDur : Nat)
    (name : Option String) : Except DetectError (List Event) :=
  if threshold ≤ 0 then .error .InvalidThreshold
  else if minDur = 0 then .error .InvalidParameter
  else .ok (mkEvents (name.getD "fixation") (idtGo pos threshold minDur pos.length 0))

theorem growEnd_ge (pos : List (Option Point)) (thr : ℤ) (s : Nat) :
    ∀ fuel e, e ≤ growEnd pos thr s fuel e := by
  intro fuel
  induction fuel with
  | zero => intro e; simp [growEnd]
  | succ fuel ih =>
    intro e
    unfold growEnd
    split
    · exact le_trans (Nat.le_succ e) (ih (e + 1))
    · exact le_refl e

theorem firstMissing_ge {pos : List (Option Point)} {a b k : Nat}
    (h : firstMissing pos a b = some k) : a ≤ k := by
  unfold firstMissing at h
  have hmem := List.mem_of_find?_eq_some h
  simp only [List.mem_map, List.mem_range] at hmem
  obtain ⟨j, _, hj⟩ := hmem
  omega

theorem idtGo_ok (pos : List (Option Point)) (thr : ℤ) (m : Nat) :
    ∀ fuel s, RunsOK s (idtGo pos thr m fuel s) ∧
      MinLen m (idtGo pos thr m fuel s) := by
  intro fuel
  induction fuel with
  | zero =>
    intro s
    exact ⟨trivial, fun r hr => by simp [idtGo] at hr⟩
  | succ fuel ih =>
    intro s
    unfold idtGo
    by_cases hn : s + m < pos.length
    · simp only [hn, if_true]
      cases hfm : firstMissing pos s (s + m) with
      | some k =>
        have hk : s ≤ k := firstMissing_ge hfm
        exact ⟨runsOK_mono (by omega) (ih (k + 1)).1, (ih (k + 1)).2⟩
      | none =>
        by_cases hd : dispersionW pos s (s + m) ≤ thr
        · simp only [hd, if_true]
          have hge : s + m ≤ growEnd pos thr s pos.length (s + m) :=
            growEnd_ge pos thr s pos.length (s + m)
          refine ⟨⟨le_refl s, by omega, (ih _).1⟩, ?_⟩
          intro r hr
          rcases List.mem_cons.mp hr with h | h
          · subst h; simp only; omega
          · exact (ih _).2 r h
        · simp only [hd, if_false]
          exact ⟨runsOK_mono (Nat.le_succ s) (ih (s + 1)).1, (ih (s + 1)).2⟩
    · simp only [hn, if_false]
      exact ⟨trivial, fun r hr => by simp at hr⟩

theorem idt_ok_simp {pos : List (Option Point)} {threshold : ℤ} {minDur : Nat}
    {name : Option String} {evs : List Event}
    (h : idt pos threshold minDur name = .ok evs) :
    0 < threshold ∧ 0 < minDur ∧
      evs = mkEvents (name.getD "fixation")
        (idtGo pos threshold minDur pos.length 0) := by
  unfold idt at h
  by_cases ht : threshold ≤ 0
  · simp [ht] at h
  · by_cases hm : minDur = 0
    · simp [ht, hm] at h
    · simp only [ht, hm, if_false, Except.ok.injEq] at h
      exact ⟨not_le.mp ht, Nat.pos_of_ne_zero hm, h.symm⟩

/-- Modelled from the spec: error taxonomy of the absent transform code. -/
inductive TransformError where
  | InvalidParameter
  | UnknownMethod
deriving DecidableEq, Repr

/-- Modelled from the spec: the `preceding` differentiation method of the
absent `pos2vel` code.  Backward first difference times the sampling rate;
the first sample of each trial is missing.  Output length equals input
length. -/
def pos2velPreceding (rate : ℚ) (xs : List ℚ) : List (Option ℚ) :=
  (List.range xs.length).map (fun i =>
    if i = 0 then none
    else some ((xs.getD i 0 - xs.getD (i - 1) 0) * rate))

/-- Modelled from the spec: the `neighbors` differentiation method of the
absent `pos2vel` code.  Centered difference over one neighbor on each side;
first and last samples are missing. -/
def pos2velNeighbors (rate : ℚ) (xs : List ℚ) : List (Option ℚ) :=
  (List.range xs.length).map (fun i =>
    if 1 ≤ i ∧ i + 1 < xs.length then
      some ((xs.getD (i + 1) 0 - xs.getD (i - 1) 0) * rate / 2)
    else none)

/-- Modelled from the spec: the `smooth` (five-point) differentiation method
of the absent `pos2vel` code, averaging differences over two neighbors on
each side; the first two and last two samples are missing. -/
def pos2velSmooth (rate : ℚ) (xs : List ℚ) : List (Option ℚ) :=
  (List.range xs.length).map (fun i =>
    if 2 ≤ i ∧ i + 2 < xs.length then
      some ((xs.getD (i + 2) 0 + xs.getD (i + 1) 0
        - xs.getD (i - 1) 0 - xs.getD (i - 2) 0) * rate / 6)
    else none)

/-- Modelled from the spec: the Savitzky-Golay derivative kernel of the
absent `pos2vel` code is "precomputed" and its coefficient values are not
fixed by the specification; only the window structure and parameter
validation are.  The coefficients are abstracted here as a fixed computable
function of the window length (the polynomial degree influences only
validation in this model). -/
def savGolCoeffs (window : Nat) : List ℚ :=
  (List.range window).map (fun j => ((j : ℚ) - ((window / 2 : Nat) : ℚ)))

/-- Modelled from the spec: the `savitzky_golay` differentiation method of
the absent `pos2vel` code.  Fails with `InvalidParameter` when the window
length is even, less than `degree + 2`, or exceeds the trial length; samples
within half the window of either trial boundary are missing, interior
samples are the kernel convolution. -/
def savitzkyGolayVel (window degree : Nat) (rate : ℚ) (xs : List ℚ) :
    Except TransformError (List (Option ℚ)) :=
  if window % 2 = 0 then .error .InvalidParameter
  else if window < degree + 2 then .error .InvalidParameter
  else if xs.length < window then .error .InvalidParameter
  else .ok ((List.range xs.length).map (fun i =>
    if window / 2 ≤ i ∧ i + window / 2 < xs.length then
      some ((((savGolCoeffs window).zip
          ((List.range window).map (fun j => xs.getD (i - window / 2 + j) 0))).map
        (fun p => p.1 * p.2)).foldl (· + ·) 0 * rate)
    else none))

/-- Modelled from the spec: the method dispatcher of the absent `pos2vel`
code.  The tutorial lists `preceding`, `neighbors`, `smooth` and
`savitzky_golay` and then invokes the method name `fivepoint`, which denotes
the same five-point stencil as `smooth`. -/
def pos2vel (method : String) (rate : ℚ) (window degree : Nat)
    (xs : List ℚ) : Except TransformError (List (Option ℚ)) :=
  if method = "preceding" then .ok (pos2velPreceding rate xs)
  else if method = "neighbors" then .ok (pos2velNeighbors rate xs)
  else if method = "smooth" then .ok (pos2velSmooth rate xs)
  else if method = "fivepoint" then .ok (pos2velSmooth rate xs)
  else if method = "savitzky_golay" then savitzkyGolayVel window degree rate xs
  else .error .UnknownMethod

/-- Modelled from the spec: the absent `pix2deg` transform.  Converts a
pixel offset from the screen center into degrees of visual angle via
`atan(pixel_offset_cm / distance_cm) * 180 / pi`, where the centimeter
offset uses the screen's pixel-to-centimeter ratio. -/
noncomputable def pix2deg (x screenPx screenCm dist : ℝ) : ℝ :=
  Real.arctan (x * screenCm / screenPx / dist) * 180 / Real.pi

/-- Modelled from the spec: the absent `deg2pix` transform, the exact
inverse of `pix2deg` with `tan` in place of `atan`. -/
noncomputable def deg2pix (deg screenPx screenCm dist : ℝ) : ℝ :=
  Real.tan (deg * Real.pi / 180) * dist * screenPx / screenCm

theorem getD_map_range {α : Type} (f : Nat → α) (n i : Nat) (d : α)
    (h : i < n) : (((List.range n).map f).getD i d) = f i := by
  rw [List.getD_eq_getElem?_getD, List.getElem?_map, List.getElem?_range h]
  rfl

theorem runsOK_mem : ∀ {l : List (Nat × Nat)} {lo : Nat}, RunsOK lo l →
    ∀ r ∈ l, r.1 ≤ r.2 := by
  intro l
  induction l with
  | nil => intro lo _ r hr; simp at hr
  | cons r0 rest ih =>
    obtain ⟨s, e⟩ := r0
    intro lo h r hr
    obtain ⟨h1, h2, h3⟩ := h
    rcases List.mem_cons.mp hr with h | h
    · subst h; exact h2
    · exact ih h3 r h

theorem mkEvents_mem {nm : String} {l : List (Nat × Nat)} {ev : Event}
    (h : ev ∈ mkEvents nm l) : ∃ r ∈ l, ev = ⟨nm, r.1, r.2⟩ := by
  obtain ⟨r, hrl, hr⟩ := List.mem_map.mp h
  exact ⟨r, hrl, hr.symm⟩

theorem eventsOK_fillMap (nm : String) {l : List (Nat × Nat)} {lo : Nat}
    (hR : RunsOK lo l) :
    EventsOK (mkEvents nm (l.map (fun r => (r.1, r.2 + 1)))) := by
  constructor
  · intro ev hev
    obtain ⟨r', hr'l, hr'⟩ := mkEvents_mem hev
    obtain ⟨r, hrl, hr⟩ := List.mem_map.mp hr'l
    have := runsOK_mem hR r hrl
    subst hr'
    subst hr
    simp only
    omega
  · unfold mkEvents
    rw [List.chain'_map, List.chain'_map]
    exact List.Chain'.imp (fun a b h => by simp only; omega) (runsOK_chain hR)

theorem minLenOne_strict {m : Nat} {l : List (Nat × Nat)} (hm : 1 ≤ m)
    (hM : MinLen m l) (nm : String) :
    ∀ ev ∈ mkEvents nm l, ev.onset < ev.offset := by
  intro ev hev
  obtain ⟨r, hrl, hr⟩ := mkEvents_mem hev
  have := hM r hrl
  subst hr
  simp only
  omega

/-- Claim C1: for every run of any event detector (idt, ivt, microsaccades, fill)
on a single trial, the emitted events are ordered by onset, pairwise
non-overlapping with `offset_i ≤ onset_{i+1}`, and every emitted event
satisfies `onset < offset`. -/
theorem detector_runs_wellformed
    (vels velsM : List (Option ℚ)) (pos : List (Option Point))
    (thrV thrM : ℚ) (thrD : ℤ) (m mM mi gap n : Nat)
    (ex : List (Nat × Nat)) (nm : Option String) (evs : List Event) :
    (ivt vels thrV m nm = .ok evs → EventsOK evs) ∧
    (idt pos thrD m nm = .ok evs → EventsOK evs) ∧
    (microsaccades velsM thrM mM mi nm = .ok evs → EventsOK evs) ∧
    (fillDetector n ex gap nm = evs → EventsOK evs) := by
  refine ⟨fun h => ?_, fun h => ?_, fun h => ?_, fun h => ?_⟩
  · obtain ⟨_, hm, hevs⟩ := ivt_ok_simp h
    subst hevs
    exact eventsOK_mkEvents _ hm (runsOK_filter _ (runs_ok _)) (minLen_filter _ _)
  · obtain ⟨_, hm, hevs⟩ := idt_ok_simp h
    subst hevs
    exact eventsOK_mkEvents _ hm (idtGo_ok pos thrD m pos.length 0).1
      (idtGo_ok pos thrD m pos.length 0).2
  · obtain ⟨_, hm, hevs⟩ := microsaccades_ok_simp h
    subst hevs
    exact eventsOK_mkEvents _ hm
      (mergeClose_ok mi (runsOK_filter _ (runs_ok _)) (minLen_filter mM _)).1
      (mergeClose_ok mi (runsOK_filter _ (runs_ok _)) (minLen_filter mM _)).2
  · subst h
    exact eventsOK_fillMap _ (runsOK_filter _ (runs_ok _))

/-- Claim C1 witness: concrete detector runs whose outputs satisfy the
well-formedness invariant. -/
theorem detector_runs_wellformed_witness :
    EventsOK [⟨"fixation", 0, 4⟩, ⟨"fixation", 8, 11⟩] ∧
      EventsOK [⟨"unclassified", 10, 15⟩] :=
  ⟨(detector_runs_wellformed
      [some 0, some 0, some 0, some 0, some 0, some 50, some 50, some 50,
        some 0, some 0, some 0, some 0] [] [] 10 1 1 3 1 0 0 20 [] none
      [⟨"fixation", 0, 4⟩, ⟨"fixation", 8, 11⟩]).1 (by rfl),
    (detector_runs_wellformed [] [] [] 1 1 1 1 1 0 3 20 [(0, 10), (15, 20)] none
      [⟨"unclassified", 10, 15⟩]).2.2.2 (by decide)⟩

/-- Claim C3: for every detector invocation with a minimum-duration constraint,
every emitted event has `offset - onset` at least the minimum duration (for
the fill pass, at least the minimum gap, which it in fact strictly
exceeds). -/
theorem detector_minimum_duration
    (vels velsM : List (Option ℚ)) (pos : List (Option Point))
    (thrV thrM : ℚ) (thrD : ℤ) (m mM mi gap n : Nat)
    (ex : List (Nat × Nat)) (nm : Option String) (evs : List Event) :
    (ivt vels thrV m nm = .ok evs → ∀ ev ∈ evs, m ≤ ev.offset - ev.onset) ∧
    (idt pos thrD m nm = .ok evs → ∀ ev ∈ evs, m ≤ ev.offset - ev.onset) ∧
    (microsaccades velsM thrM mM mi nm = .ok evs →
      ∀ ev ∈ evs, mM ≤ ev.offset - ev.onset) ∧
    (fillDetector n ex gap nm = evs → ∀ ev ∈ evs, gap ≤ ev.offset - ev.onset) := by
  refine ⟨fun h ev hev => ?_, fun h ev hev => ?_, fun h ev hev => ?_,
    fun h ev hev => ?_⟩
  · obtain ⟨_, _, hevs⟩ := ivt_ok_simp h
    subst hevs
    obtain ⟨r, hrl, hr⟩ := mkEvents_mem hev
    have := minLen_filter m _ r hrl
    subst hr
    simpa using this
  · obtain ⟨_, _, hevs⟩ := idt_ok_simp h
    subst hevs
    obtain ⟨r, hrl, hr⟩ := mkEvents_mem hev
    have := (idtGo_ok pos thrD m pos.length 0).2 r hrl
    subst hr
    simpa using this
  · obtain ⟨_, _, hevs⟩ := microsaccades_ok_simp h
    subst hevs
    obtain ⟨r, hrl, hr⟩ := mkEvents_mem hev
    have := (mergeClose_ok mi (runsOK_filter _ (runs_ok _))
      (minLen_filter mM _)).2 r hrl
    subst hr
    simpa using this
  · subst h
    obtain ⟨r', hr'l, hr'⟩ := mkEvents_mem hev
    obtain ⟨r, hrl, hr⟩ := List.mem_map.mp hr'l
    have hgap : gap < r.2 + 1 - r.1 := by simpa using List.of_mem_filter hrl
    subst hr'
    subst hr
    simp only
    omega

/-- Claim C3 witness: a concrete microsaccades run whose events meet the
minimum duration. -/
theorem detector_minimum_duration_witness :
    ∀ ev ∈ [Event.mk "saccade" 2 3], 1 ≤ ev.offset - ev.onset :=
  (detector_minimum_duration [] [some 5, some 5, some 40, some 45, some 5, some 5]
    [] 1 30 1 1 1 0 0 0 [] none [⟨"saccade", 2, 3⟩]).2.2.1 (by rfl)

/-- Claim C6: the velocity-threshold detector, applied to a trial with velocity
magnitudes `[0,0,0,0,0,50,50,50,0,0,0,0]`, threshold 10 and minimum duration
3 samples, emits exactly two fixation events, spanning samples 0-4 and 8-11,
and no saccade event. -/
theorem ivt_scenario :
    ivt [some 0, some 0, some 0, some 0, some 0, some 50, some 50, some 50,
        some 0, some 0, some 0, some 0] 10 3 none
      = .ok [⟨"fixation", 0, 4⟩, ⟨"fixation", 8, 11⟩] ∧
    ∀ ev ∈ [Event.mk "fixation" 0 4, Event.mk "fixation" 8 11],
      ev.name ≠ "saccade" :=
  ⟨by rfl, by decide⟩

/-- Claim C6 witness: one of the scenario events, named fixation and not
saccade. -/
theorem ivt_scenario_witness : (Event.mk "fixation" 0 4).name ≠ "saccade" :=
  ivt_scenario.2 (Event.mk "fixation" 0 4) (by decide)

theorem runsAux_cons_none_true (bs : List Bool) (i : Nat) :
    runsAux (true :: bs) i none = runsAux bs (i + 1) (some (i, i)) := rfl

theorem runsAux_cons_none_false (bs : List Bool) (i : Nat) :
    runsAux (false :: bs) i none = runsAux bs (i + 1) none := rfl

theorem runsAux_cons_some_true (bs : List Bool) (i s e : Nat) :
    runsAux (true :: bs) i (some (s, e)) = runsAux bs (i + 1) (some (s, i)) := rfl

theorem runsAux_cons_some_false (bs : List Bool) (i s e : Nat) :
    runsAux (false :: bs) i (some (s, e)) = (s, e) :: runsAux bs (i + 1) none := rfl

theorem runsAux_mem_char (p : Nat → Bool) : ∀ k i : Nat,
    (∀ s e, ((s, e) ∈ runsAux ((List.range' i k).map p) i none ↔
      (i ≤ s ∧ s ≤ e ∧ e < i + k ∧ (∀ t, s ≤ t → t ≤ e → p t = true) ∧
        (s = i ∨ p (s - 1) = false) ∧ (e + 1 = i + k ∨ p (e + 1) = false)))) ∧
    (∀ s0 s e, 1 ≤ i →
      ((s, e) ∈ runsAux ((List.range' i k).map p) i (some (s0, i - 1)) ↔
        ((s = s0 ∧ i - 1 ≤ e ∧ e < i + k ∧ (∀ t, i ≤ t → t ≤ e → p t = true) ∧
            (e + 1 = i + k ∨ p (e + 1) = false)) ∨
          (i < s ∧ s ≤ e ∧ e < i + k ∧ (∀ t, s ≤ t → t ≤ e → p t = true) ∧
            p (s - 1) = false ∧ (e + 1 = i + k ∨ p (e + 1) = false))))) := by
  intro k
  induction k with
  | zero =>
    intro i
    constructor
    · intro s e
      simp only [List.range'_zero, List.map_nil, runsAux, List.not_mem_nil,
        false_iff]
      omega
    · intro s0 s e hi
      simp only [List.range'_zero, List.map_nil, runsAux, List.mem_singleton,
        Prod.mk.injEq]
      constructor
      · rintro ⟨rfl, rfl⟩
        exact Or.inl ⟨rfl, le_refl _, by omega,
          fun t ht1 ht2 => absurd ht2 (by omega), Or.inl (by omega)⟩
      · rintro (⟨rfl, h1, h2, h3, h4⟩ | ⟨h1, h2, h3, h4, h5, h6⟩)
        · exact ⟨rfl, by omega⟩
        · exact absurd h3 (by omega)
  | succ k ih =>
    intro i
    have hcons : (List.range' i (k + 1)).map p
        = p i :: (List.range' (i + 1) k).map p := by
      rw [List.range'_succ i k 1, List.map_cons]
    constructor
    · intro s e
      rw [hcons]
      cases hpi : p i with
      | true =>
        rw [runsAux_cons_none_true]
        have h2' := (ih (i + 1)).2 i s e (by omega)
        rw [Nat.add_sub_cancel] at h2'
        rw [h2']
        constructor
        · rintro (⟨hs0, h1, h2, h3, h4⟩ | ⟨h1, h2, h3, h4, h5, h6⟩)
          · refine ⟨by omega, by omega, by omega, ?_, Or.inl (by omega),
              h4.imp (fun h => by omega) id⟩
            intro t ht1 ht2
            rcases Nat.lt_or_ge t (i + 1) with h | h
            · have ht : t = i := by omega
              rw [ht]
              exact hpi
            · exact h3 t h ht2
          · exact ⟨by omega, h2, by omega, h4, Or.inr h5,
              h6.imp (fun h => by omega) id⟩
        · rintro ⟨h1, h2, h3, h4, h5, h6⟩
          by_cases hs : s = i
          · subst hs
            exact Or.inl ⟨rfl, h2, by omega,
              fun t ht1 ht2 => h4 t (by omega) ht2,
              h6.imp (fun h => by omega) id⟩
          · have hs' : p (s - 1) = false := by
              rcases h5 with h | h
              · exact absurd h hs
              · exact h
            have hsi : i + 1 < s := by
              rcases Nat.lt_or_ge (i + 1) s with h | h
              · exact h
              · exfalso
                have hseq : s = i + 1 := by omega
                rw [hseq, Nat.add_sub_cancel, hpi] at hs'
                exact absurd hs' (by simp)
            exact Or.inr ⟨hsi, h2, by omega, h4, hs',
              h6.imp (fun h => by omega) id⟩
      | false =>
        rw [runsAux_cons_none_false]
        rw [(ih (i + 1)).1 s e]
        constructor
        · rintro ⟨h1, h2, h3, h4, h5, h6⟩
          refine ⟨by omega, h2, by omega, h4, ?_,
            h6.imp (fun h => by omega) id⟩
          rcases h5 with h | h
          · right
            rw [h, Nat.add_sub_cancel]
            exact hpi
          · exact Or.inr h
        · rintro ⟨h1, h2, h3, h4, h5, h6⟩
          have hsi : i + 1 ≤ s := by
            rcases Nat.eq_or_lt_of_le h1 with h | h
            · exfalso
              have hp := h4 i (by omega) (by omega)
              rw [hpi] at hp
              exact absurd hp (by simp)
            · omega
          refine ⟨hsi, h2, by omega, h4, ?_,
            h6.imp (fun h => by omega) id⟩
          rcases h5 with h | h
          · exact absurd h (by omega)
          · exact Or.inr h
    · intro s0 s e hi
      rw [hcons]
      cases hpi : p i with
      | true =>
        rw [show (i : Nat) - 1 = i - 1 from rfl, runsAux_cons_some_true]
        have h2' := (ih (i + 1)).2 s0 s e (by omega)
        rw [Nat.add_sub_cancel] at h2'
        rw [h2']
        constructor
        · rintro (⟨rfl, h1, h2, h3, h4⟩ | ⟨h1, h2, h3, h4, h5, h6⟩)
          · refine Or.inl ⟨rfl, by omega, by omega, ?_,
              h4.imp (fun h => by omega) id⟩
            intro t ht1 ht2
            rcases Nat.lt_or_ge t (i + 1) with h | h
            · have ht : t = i := by omega
              rw [ht]
              exact hpi
            · exact h3 t h ht2
          · exact Or.inr ⟨by omega, h2, by omega, h4, h5,
              h6.imp (fun h => by omega) id⟩
        · rintro (⟨rfl, h1, h2, h3, h4⟩ | ⟨h1, h2, h3, h4, h5, h6⟩)
          · have hie : i ≤ e := by
              by_contra hlt
              have he : e + 1 = i := by omega
              rcases h4 with h | h
              · omega
              · rw [he, hpi] at h
                exact absurd h (by simp)
            exact Or.inl ⟨rfl, hie, by omega,
              fun t ht1 ht2 => h3 t (by omega) ht2,
              h4.imp (fun h => by omega) id⟩
          · have hs1 : i + 1 < s := by
              by_contra hle
              have hseq : s = i + 1 := by omega
              rw [hseq, Nat.add_sub_cancel, hpi] at h5
              exact absurd h5 (by simp)
            exact Or.inr ⟨hs1, h2, by omega, h4, h5,
              h6.imp (fun h => by omega) id⟩
      | false =>
        rw [runsAux_cons_some_false]
        rw [List.mem_cons, (ih (i + 1)).1 s e]
        constructor
        · rintro (heq | ⟨h1, h2, h3, h4, h5, h6⟩)
          · injection heq with hA hB
            subst hA
            subst hB
            refine Or.inl ⟨rfl, le_refl _, by omega,
              fun t ht1 ht2 => absurd ht2 (by omega), Or.inr ?_⟩
            rw [show i - 1 + 1 = i from by omega]
            exact hpi
          · refine Or.inr ⟨by omega, h2, by omega, h4, ?_,
              h6.imp (fun h => by omega) id⟩
            rcases h5 with h | h
            · rw [h, Nat.add_sub_cancel]
              exact hpi
            · exact h
        · rintro (⟨rfl, h1, h2, h3, h4⟩ | ⟨h1, h2, h3, h4, h5, h6⟩)
          · left
            have he : e = i - 1 := by
              by_contra hne
              have hie : i ≤ e := by omega
              have hp := h3 i (le_refl i) hie
              rw [hpi] at hp
              exact absurd hp (by simp)
            rw [he]
          · right
            exact ⟨by omega, h2, by omega, h4, Or.inr h5,
              h6.imp (fun h => by omega) id⟩

theorem runs_mem_char (p : Nat → Bool) (n s e : Nat) :
    (s, e) ∈ runs ((List.range n).map p) ↔
      (s ≤ e ∧ e < n ∧ (∀ t, s ≤ t → t ≤ e → p t = true) ∧
        (s = 0 ∨ p (s - 1) = false) ∧ (e + 1 = n ∨ p (e + 1) = false)) := by
  unfold runs
  rw [List.range_eq_range' n, (runsAux_mem_char p n 0).1 s e]
  simp

/-- A timestamp is covered when it lies in the half-open `[onset, offset)`
interval of some existing event. -/
def covered (ex : List (Nat × Nat)) (t : Nat) : Prop :=
  ∃ r ∈ ex, r.1 ≤ t ∧ t < r.2

/-- A maximal uncovered interval `[s, e)` of the trial time range `[0, n)`:
non-empty, inside the range, uncovered throughout, and not extendable on
either side. -/
def MaximalGap (n : Nat) (ex : List (Nat × Nat)) (s e : Nat) : Prop :=
  s < e ∧ e ≤ n ∧ (∀ t, s ≤ t → t < e → ¬ covered ex t) ∧
    (s = 0 ∨ covered ex (s - 1)) ∧ (e = n ∨ covered ex e)

theorem uncovered_eq_true (ex : List (Nat × Nat)) (t : Nat) :
    (!(ex.any (fun r => decide (r.1 ≤ t) && decide (t < r.2)))) = true ↔
      ¬ covered ex t := by
  simp [covered]

theorem uncovered_eq_false (ex : List (Nat × Nat)) (t : Nat) :
    (!(ex.any (fun r => decide (r.1 ≤ t) && decide (t < r.2)))) = false ↔
      covered ex t := by
  simp [covered]

/-- Claim C7: the fill detector inserts a filler event into every maximal
uncovered interval of the trial's time range whose duration strictly exceeds
the configured minimum and leaves shorter gaps uncovered — an event belongs
to the output exactly when it is such a gap; in particular, on a `[0,20)`
trial covered on `[0,10)` and `[15,20)` with minimum gap 3 it inserts
exactly the filler `[10,15)`, which is left uncovered at minimum gap 5. -/
theorem fill_characterization (n g : Nat) (ex : List (Nat × Nat))
    (nm : Option String) (ev : Event) :
    (ev ∈ fillDetector n ex g nm ↔
      ∃ s e, ev = ⟨nm.getD "unclassified", s, e⟩ ∧ MaximalGap n ex s e ∧
        g < e - s) ∧
    fillDetector 20 [(0, 10), (15, 20)] 3 none = [⟨"unclassified", 10, 15⟩] ∧
    fillDetector 20 [(0, 10), (15, 20)] 5 none = [] := by
  refine ⟨?_, by decide, by decide⟩
  unfold fillDetector mkEvents
  constructor
  · intro hev
    simp only [List.mem_map, List.mem_filter] at hev
    obtain ⟨r2, ⟨⟨s0, e0⟩, ⟨hmem, hq⟩, rfl⟩, rfl⟩ := hev
    rw [runs_mem_char] at hmem
    obtain ⟨hse, hen, hall, hleft, hright⟩ := hmem
    refine ⟨s0, e0 + 1, rfl, ⟨by omega, by omega, ?_, ?_, ?_⟩, ?_⟩
    · intro t ht1 ht2
      exact (uncovered_eq_true ex t).mp (hall t ht1 (by omega))
    · rcases hleft with h | h
      · exact Or.inl h
      · exact Or.inr ((uncovered_eq_false ex (s0 - 1)).mp h)
    · rcases hright with h | h
      · exact Or.inl h
      · exact Or.inr ((uncovered_eq_false ex (e0 + 1)).mp h)
    · simpa using hq
  · rintro ⟨s, e, rfl, ⟨h1, h2, h3, h4, h5⟩, hdur⟩
    have he : e - 1 + 1 = e := by omega
    simp only [List.mem_map, List.mem_filter]
    refine ⟨(s, e), ⟨(s, e - 1), ⟨?_, ?_⟩, by simp only [he]⟩, rfl⟩
    · rw [runs_mem_char]
      refine ⟨by omega, by omega, ?_, ?_, ?_⟩
      · intro t ht1 ht2
        exact (uncovered_eq_true ex t).mpr (h3 t ht1 (by omega))
      · rcases h4 with h | h
        · exact Or.inl h
        · exact Or.inr ((uncovered_eq_false ex (s - 1)).mpr h)
      · rw [he]
        rcases h5 with h | h
        · exact Or.inl h
        · exact Or.inr ((uncovered_eq_false ex e).mpr h)
    · rw [he]
      simpa using hdur

/-- Claim C8: every detector invoked with a non-positive threshold fails with
`InvalidThreshold` (the fill pass takes no threshold), and an empty trial
with valid parameters is not an error but yields an empty event list. -/
theorem detector_threshold_empty
    (vels : List (Option ℚ)) (pos : List (Option Point))
    (thrV thrM : ℚ) (thrD : ℤ) (m mi gap : Nat)
    (ex : List (Nat × Nat)) (nm : Option String) :
    (thrV ≤ 0 → ivt vels thrV m nm = .error .InvalidThreshold) ∧
    (thrD ≤ 0 → idt pos thrD m nm = .error .InvalidThreshold) ∧
    (thrM ≤ 0 → microsaccades vels thrM m mi nm = .error .InvalidThreshold) ∧
    (0 < thrV → 0 < m → ivt [] thrV m nm = .ok []) ∧
    (0 < thrD → 0 < m → idt [] thrD m nm = .ok []) ∧
    (0 < thrM → 0 < m → microsaccades [] thrM m mi nm = .ok []) ∧
    fillDetector 0 ex gap nm = [] := by
  refine ⟨fun h => ?_, fun h => ?_, fun h => ?_, fun h1 h2 => ?_,
    fun h1 h2 => ?_, fun h1 h2 => ?_, ?_⟩
  · simp [ivt, h]
  · simp [idt, h]
  · simp [microsaccades, h]
  · simp [ivt, runs, runsAux, mkEvents, mergeClose, not_le.mpr h1,
      Nat.pos_iff_ne_zero.mp h2]
  · simp [idt, idtGo, mkEvents, not_le.mpr h1, Nat.pos_iff_ne_zero.mp h2]
  · simp [microsaccades, runs, runsAux, mkEvents, mergeClose, not_le.mpr h1,
      Nat.pos_iff_ne_zero.mp h2]
  · simp [fillDetector, runs, runsAux, mkEvents]

/-- Claim C8 witness: concrete invalid-threshold failures and empty-trial
successes. -/
theorem detector_threshold_empty_witness :
    ivt [some 1] 0 1 none = .error .InvalidThreshold ∧
      ivt [] 1 1 none = .ok [] ∧
      idt [] 1 1 none = .ok [] ∧
      microsaccades [] 1 1 0 none = .ok [] := by
  have h := detector_threshold_empty [some 1] [] 0 1 1 1 0 0 [] none
  have h2 := detector_threshold_empty [] [] 1 1 1 1 0 0 [] none
  exact ⟨h.1 (by norm_num), h2.2.2.2.1 (by norm_num) (by norm_num),
    h2.2.2.2.2.1 (by norm_num) (by norm_num),
    h2.2.2.2.2.2.1 (by norm_num) (by norm_num)⟩

/-- Claim C10: the microsaccades detector without a caller-supplied name emits
events named `saccade`; any detector invoked with an explicit name argument
emits events carrying exactly that name. -/
theorem detector_event_names
    (vels : List (Option ℚ)) (pos : List (Option Point))
    (thrV thrM : ℚ) (thrD : ℤ) (m mi gap n : Nat)
    (ex : List (Nat × Nat)) (nm : String) (evs : List Event) :
    (microsaccades vels thrM m mi none = .ok evs →
      ∀ ev ∈ evs, ev.name = "saccade") ∧
    (microsaccades vels thrM m mi (some nm) = .ok evs →
      ∀ ev ∈ evs, ev.name = nm) ∧
    (ivt vels thrV m (some nm) = .ok evs → ∀ ev ∈ evs, ev.name = nm) ∧
    (idt pos thrD m (some nm) = .ok evs → ∀ ev ∈ evs, ev.name = nm) ∧
    (fillDetector n ex gap (some nm) = evs → ∀ ev ∈ evs, ev.name = nm) := by
  refine ⟨fun h ev hev => ?_, fun h ev hev => ?_, fun h ev hev => ?_,
    fun h ev hev => ?_, fun h ev hev => ?_⟩
  · obtain ⟨_, _, hevs⟩ := microsaccades_ok_simp h
    subst hevs
    obtain ⟨r, _, hr⟩ := mkEvents_mem hev
    subst hr
    rfl
  · obtain ⟨_, _, hevs⟩ := microsaccades_ok_simp h
    subst hevs
    obtain ⟨r, _, hr⟩ := mkEvents_mem hev
    subst hr
    rfl
  · obtain ⟨_, _, hevs⟩ := ivt_ok_simp h
    subst hevs
    obtain ⟨r, _, hr⟩ := mkEvents_mem hev
    subst hr
    rfl
  · obtain ⟨_, _, hevs⟩ := idt_ok_simp h
    subst hevs
    obtain ⟨r, _, hr⟩ := mkEvents_mem hev
    subst hr
    rfl
  · subst h
    obtain ⟨r, _, hr⟩ := mkEvents_mem hev
    subst hr
    rfl

/-- Claim C10 witness: a concrete default-named microsaccades run and a concrete
custom-named ivt run. -/
theorem detector_event_names_witness :
    (∀ ev ∈ [Event.mk "saccade" 2 3], ev.name = "saccade") ∧
    ∀ ev ∈ [Event.mk "fixation.ivt" 0 2], ev.name = "fixation.ivt" :=
  ⟨(detector_event_names [some 5, some 5, some 40, some 45, some 5, some 5]
      [] 1 30 1 1 1 0 0 [] "x" [⟨"saccade", 2, 3⟩]).1 (by rfl),
    (detector_event_names [some 1, some 1, some 1] [] 2 1 1 2 0 0 0 []
      "fixation.ivt" [⟨"fixation.ivt", 0, 2⟩]).2.2.1 (by rfl)⟩

/-- Claim C4: for every trial and every differentiation method, the derivative
sequence has exactly the input length, with boundary samples missing rather
than dropped: the first for `preceding`, the first and last for `neighbors`,
the first two and last two for `smooth`, and samples within half the window
of either trial boundary for `savitzky_golay`. -/
theorem pos2vel_length_missing (rate : ℚ) (xs : List ℚ) (w deg : Nat)
    (ys : List (Option ℚ)) :
    ((pos2velPreceding rate xs).length = xs.length ∧
      ∀ i, i < xs.length →
        ((pos2velPreceding rate xs).getD i none = none ↔ i = 0)) ∧
    ((pos2velNeighbors rate xs).length = xs.length ∧
      ∀ i, i < xs.length →
        ((pos2velNeighbors rate xs).getD i none = none ↔
          i = 0 ∨ i + 1 = xs.length)) ∧
    ((pos2velSmooth rate xs).length = xs.length ∧
      ∀ i, i < xs.length →
        ((pos2velSmooth rate xs).getD i none = none ↔
          i < 2 ∨ xs.length ≤ i + 2)) ∧
    (savitzkyGolayVel w deg rate xs = .ok ys →
      ys.length = xs.length ∧
      ∀ i, i < xs.length →
        (ys.getD i none = none ↔ i < w / 2 ∨ xs.length ≤ i + w / 2)) := by
  refine ⟨⟨?_, ?_⟩, ⟨?_, ?_⟩, ⟨?_, ?_⟩, fun h => ?_⟩
  · simp [pos2velPreceding]
  · intro i hi
    unfold pos2velPreceding
    rw [getD_map_range _ _ _ _ hi]
    by_cases h0 : i = 0 <;> simp [h0]
  · simp [pos2velNeighbors]
  · intro i hi
    unfold pos2velNeighbors
    rw [getD_map_range _ _ _ _ hi]
    by_cases hc : 1 ≤ i ∧ i + 1 < xs.length <;> simp [hc] <;> omega
  · simp [pos2velSmooth]
  · intro i hi
    unfold pos2velSmooth
    rw [getD_map_range _ _ _ _ hi]
    by_cases hc : 2 ≤ i ∧ i + 2 < xs.length <;> simp [hc] <;> omega
  · unfold savitzkyGolayVel at h
    by_cases h1 : w % 2 = 0
    · rw [if_pos h1] at h
      simp at h
    · by_cases h2 : w < deg + 2
      · rw [if_neg h1, if_pos h2] at h
        simp at h
      · by_cases h3 : xs.length < w
        · rw [if_neg h1, if_neg h2, if_pos h3] at h
          simp at h
        · rw [if_neg h1, if_neg h2, if_neg h3, Except.ok.injEq] at h
          subst h
          refine ⟨by simp, fun i hi => ?_⟩
          rw [getD_map_range _ _ _ _ hi]
          by_cases hc : w / 2 ≤ i ∧ i + w / 2 < xs.length <;>
            simp [hc] <;> omega

/-- Claim C4 witness: on a concrete five-sample trial the preceding method keeps
the length and marks exactly the first sample missing, and savitzky-golay
with window 5 marks exactly the first two and last two missing. -/
theorem pos2vel_length_missing_witness :
    (pos2velPreceding 1 [0, 1, 2, 3, 4]).length = 5 ∧
      ((pos2velPreceding 1 [0, 1, 2, 3, 4]).getD 0 none = none ↔ 0 = 0) ∧
      (((savitzkyGolayVel 5 2 1 [0, 1, 2, 3, 4, 5, 6]).toOption.getD []).getD 2 none
        = none ↔ ((2 : Nat) < 2 ∨ 7 ≤ 2 + 2)) := by
  have h1 := (pos2vel_length_missing 1 [0, 1, 2, 3, 4] 5 2 []).1
  have h2 := (pos2vel_length_missing 1 [0, 1, 2, 3, 4, 5, 6] 5 2
    ((savitzkyGolayVel 5 2 1 [0, 1, 2, 3, 4, 5, 6]).toOption.getD [])).2.2.2
  exact ⟨h1.1, h1.2 0 (by norm_num), (h2 (by rfl)).2 2 (by norm_num)⟩

/-- Claim C5: the savitzky_golay method fails with `InvalidParameter` exactly when
the window length is even, less than `degree + 2`, or exceeds the trial
length; for all other parameter values it succeeds. -/
theorem savitzky_golay_validation (w deg : Nat) (rate : ℚ) (xs : List ℚ) :
    (savitzkyGolayVel w deg rate xs = .error .InvalidParameter ↔
      w % 2 = 0 ∨ w < deg + 2 ∨ xs.length < w) ∧
    (¬(w % 2 = 0 ∨ w < deg + 2 ∨ xs.length < w) →
      ∃ ys, savitzkyGolayVel w deg rate xs = .ok ys) := by
  unfold savitzkyGolayVel
  by_cases h1 : w % 2 = 0
  · simp [h1]
  · by_cases h2 : w < deg + 2
    · simp [h1, h2]
    · by_cases h3 : xs.length < w
      · simp [h1, h2, h3]
      · simp [h1, h2, h3]

/-- Claim C5 witness: window 7 with degree 2 on a seven-sample trial succeeds. -/
theorem savitzky_golay_validation_witness :
    ∃ ys, savitzkyGolayVel 7 2 1 [0, 0, 0, 0, 0, 0, 0] = .ok ys :=
  (savitzky_golay_validation 7 2 1 [0, 0, 0, 0, 0, 0, 0]).2 (by decide)

/-- Claim C9: `pos2vel` also accepts the method name `fivepoint`, and for every
input it produces the same output as the `smooth` method. -/
theorem pos2vel_fivepoint_smooth (rate : ℚ) (w deg : Nat) (xs : List ℚ) :
    pos2vel "fivepoint" rate w deg xs = pos2vel "smooth" rate w deg xs ∧
    ∃ ys, pos2vel "fivepoint" rate w deg xs = .ok ys :=
  ⟨rfl, ⟨pos2velSmooth rate xs, rfl⟩⟩

/-- Claim C2: for every geometry with positive screen width (pixels and
centimeters) and viewing distance, and every in-bounds pixel offset `x`,
`deg2pix (pix2deg x) = x` exactly in the real-number model (`tan` inverts
`atan`). -/
theorem deg2pix_pix2deg_roundtrip (x screenPx screenCm dist : ℝ)
    (hp : 0 < screenPx) (hc : 0 < screenCm) (hd : 0 < dist)
    (hx : |x| ≤ screenPx / 2) :
    deg2pix (pix2deg x screenPx screenCm dist) screenPx screenCm dist = x := by
  unfold pix2deg deg2pix
  have hπ : Real.pi ≠ 0 := Real.pi_ne_zero
  have hp' : screenPx ≠ 0 := ne_of_gt hp
  have hc' : screenCm ≠ 0 := ne_of_gt hc
  have hd' : dist ≠ 0 := ne_of_gt hd
  have harg : Real.arctan (x * screenCm / screenPx / dist) * 180 / Real.pi
      * Real.pi / 180 = Real.arctan (x * screenCm / screenPx / dist) := by
    field_simp
  rw [harg, Real.tan_arctan]
  field_simp
  ring

/-- Claim C2 witness: the round trip at pixel offset 0 for a concrete valid
geometry. -/
theorem deg2pix_pix2deg_roundtrip_witness :
    deg2pix (pix2deg 0 1920 38 68) 1920 38 68 = 0 :=
  deg2pix_pix2deg_roundtrip 0 1920 38 68 (by norm_num) (by norm_num)
    (by norm_num) (by norm_num)

end Pymovements
